import Mathlib

/-!
Shallow embedding of `drama_merge_utils.py` (repository `drama_merge`).

The external collaborators (ffprobe, ffmpeg, the filesystem) are modelled as
explicit environment parameters: a metadata probe `String → Option Metadata`,
a duration probe `String → Option ℚ`, a size reader `String → Option ℚ`
(`none` models a raised `OSError`), an existence predicate, write outcomes and
the ffmpeg outcome.  Filesystem side effects of the merge step are recorded in
an explicit effect trace.  Durations and sizes are modelled as rationals
(Python floats / ints with exact comparison); Python's `\d` digit class is
modelled as the ASCII decimal digits.
-/

namespace DramaMerge

/-- The metadata dictionary built by `get_video_metadata`: only the five keys
below can occur, `none` models an absent key (the code filters out `None`
values, so a key is either present with a value or absent). -/
structure Metadata where
  width : Option Nat
  height : Option Nat
  frame_rate : Option String
  video_codec : Option String
  audio_codec : Option String
deriving DecidableEq, Repr

/-- Python truthiness of the metadata dict: `not metadata` is true exactly when
the dict is empty, i.e. all five keys are absent. -/
def Metadata.isEmpty (m : Metadata) : Bool :=
  m.width.isNone && m.height.isNone && m.frame_rate.isNone &&
    m.video_codec.isNone && m.audio_codec.isNone

/-- One iteration of the key loop in `check_video_parameters_consistency`:
`if key in base_metadata and key in metadata and base_metadata[key] !=
metadata[key]: inconsistent.append(f"{key}: {...} vs {...}")`. -/
def mismatchEntry {α : Type} [DecidableEq α] (msg : α → α → String) :
    Option α → Option α → List String
  | some b, some c => if b ≠ c then [msg b c] else []
  | _, _ => []

/-- The `inconsistent` list built inside `check_video_parameters_consistency`:
for each of the five keys, in source order, if the key is present in both
dicts and the values differ, the rendered `"key: base vs current"` entry is
appended. -/
def checkOne (base m : Metadata) : List String :=
  mismatchEntry (fun b c => "width: " ++ toString b ++ " vs " ++ toString c)
      base.width m.width ++
  mismatchEntry (fun b c => "height: " ++ toString b ++ " vs " ++ toString c)
      base.height m.height ++
  mismatchEntry (fun b c => "frame_rate: " ++ b ++ " vs " ++ c)
      base.frame_rate m.frame_rate ++
  mismatchEntry (fun b c => "video_codec: " ++ b ++ " vs " ++ c)
      base.video_codec m.video_codec ++
  mismatchEntry (fun b c => "audio_codec: " ++ b ++ " vs " ++ c)
      base.audio_codec m.audio_codec

/-- Loop body of `check_video_parameters_consistency` over the tail of the
file list, with the first file's metadata as the fixed baseline.  The probe
`md` models `get_video_metadata` (`none` = probe returned `None`); a probe
returning an empty dict is falsy in Python and is likewise treated as a
failed probe by the code (`if not metadata`). -/
def checkLoop (md : String → Option Metadata) (base : Metadata) :
    List String → Bool × String
  | [] => (true, "所有视频参数一致")
  | f :: fs =>
    match md f with
    | none => (false, "无法获取视频元数据: " ++ f)
    | some m =>
      if m.isEmpty then (false, "无法获取视频元数据: " ++ f)
      else
        let inconsistent := checkOne base m
        if inconsistent.isEmpty then checkLoop md base fs
        else (false, "视频参数不一致: " ++ f ++ ", " ++ String.intercalate ", " inconsistent)

/-- `check_video_parameters_consistency(file_list)`, with the metadata probe
passed explicitly. -/
def check_video_parameters_consistency (md : String → Option Metadata) :
    List String → Bool × String
  | [] => (true, "无视频文件需要检查")
  | f0 :: rest =>
    match md f0 with
    | none => (false, "无法获取基准视频元数据: " ++ f0)
    | some base =>
      if base.isEmpty then (false, "无法获取基准视频元数据: " ++ f0)
      else checkLoop md base rest

/-- Spec-side compatibility relation: on each of the five compared fields,
if the field is present on both sides then the values agree (a field missing
on either side is skipped). -/
def ConsistentWith (base m : Metadata) : Prop :=
  (∀ b c, base.width = some b → m.width = some c → b = c) ∧
  (∀ b c, base.height = some b → m.height = some c → b = c) ∧
  (∀ b c, base.frame_rate = some b → m.frame_rate = some c → b = c) ∧
  (∀ b c, base.video_codec = some b → m.video_codec = some c → b = c) ∧
  (∀ b c, base.audio_codec = some b → m.audio_codec = some c → b = c)

/-- `get_video_duration(file_path)`: every failure path of the function
(nonzero ffprobe exit, timeout, missing binary, unparsable output) returns
`0`; a successful probe returns the parsed duration.  The probe argument
models the combined ffprobe call and parse, `none` meaning any failure. -/
def get_video_duration (probe : String → Option ℚ) (f : String) : ℚ :=
  match probe f with
  | none => 0
  | some d => d

/-- `posixpath.basename`: the part of the path after the last slash. -/
def basenameL : List Char → List Char
  | [] => []
  | c :: cs => if '/' ∈ c :: cs then basenameL cs else c :: cs

/-- `posixpath.dirname`: `p[:i]` where `i` is just past the last slash, with
trailing slashes stripped unless the head consists only of slashes. -/
def dirnameL (l : List Char) : List Char :=
  let head := (l.reverse.dropWhile (· ≠ '/')).reverse
  if head.all (· = '/') then head else head.reverse.dropWhile (· = '/') |>.reverse

/-- `posixpath.join(a, b)` for the cases the code exercises: if `b` is
absolute it wins; otherwise `b` is appended to `a`, inserting a slash unless
`a` is empty or already ends in one. -/
def joinPath (a b : String) : String :=
  if b.data.head? = some '/' then b
  else if a.data = [] then b
  else if a.data.getLast? = some '/' then a ++ b
  else a ++ "/" ++ b

/-- `os.path.dirname` on strings. -/
def dirname (p : String) : String := String.mk (dirnameL p.data)

/-- Outcome of the `subprocess.run` ffmpeg invocation. -/
inductive ToolOutcome where
  | ok
  | fail (stderr : String)
  | timeout
deriving DecidableEq, Repr

/-- Filesystem / subprocess side effects performed by `merge_videos_ffmpeg`,
in order. -/
inductive Eff where
  | makeDirs (dir : String)
  | writeTemp (path : String) (lines : List String)
  | runTool (listFile : String) (output : String)
  | removeTemp (path : String)
deriving DecidableEq, Repr

/-- Environment of external collaborators for one merge step. -/
structure Env where
  md : String → Option Metadata
  pathExists : String → Bool
  /-- whether opening the manifest temp file for writing succeeds -/
  writeOk : String → Bool
  /-- `str(e)` of the exception raised when opening the temp file fails -/
  writeErr : String → String
  /-- stderr text reported by a failing ffmpeg run -/
  ffmpeg : String → String → ToolOutcome

/-- `os.path.abspath(p).replace('\\', '\\\\')` followed by the manifest line
`file '<path>'`.  Absolute-path resolution is modelled as the identity on the
already-absolute paths the orchestrator produces; the backslash doubling is
kept. -/
def manifestLine (p : String) : String :=
  "file '" ++ String.mk (p.data.flatMap fun c => if c = '\\' then ['\\', '\\'] else [c]) ++ "'"

/-- `merge_videos_ffmpeg(file_list, output_path, show_name, season, episode)`,
returning the `(success, text)` pair together with the trace of side effects
performed, in order. -/
def merge_videos_ffmpeg (env : Env) (file_list : List String)
    (output_path show_name season episode : String) :
    (Bool × String) × List Eff :=
  if file_list.isEmpty then ((false, "没有视频文件需要合并"), [])
  else
    match check_video_parameters_consistency env.md file_list with
    | (false, message) => ((false, "视频参数检查失败: " ++ message), [])
    | (true, _) =>
      let output_filename := show_name ++ "_S" ++ season ++ "E" ++ episode ++ ".mp4"
      let full_output_path := joinPath output_path output_filename
      let output_dir := dirname output_path
      let effs0 : List Eff :=
        if output_dir ≠ "" ∧ env.pathExists output_dir = false then
          [Eff.makeDirs output_dir]
        else []
      if env.pathExists full_output_path then
        ((false, "输出文件已存在: " ++ full_output_path), effs0)
      else
        let temp_list_file := joinPath output_path "file_list.txt"
        if env.writeOk temp_list_file = false then
          ((false, "合并视频时发生错误: " ++ env.writeErr temp_list_file), effs0)
        else
          let effs1 := effs0 ++ [Eff.writeTemp temp_list_file (file_list.map manifestLine),
                                 Eff.runTool temp_list_file full_output_path]
          match env.ffmpeg temp_list_file full_output_path with
          | ToolOutcome.timeout =>
            ((false, "FFmpeg超时 (超过300秒)"), effs1 ++ [Eff.removeTemp temp_list_file])
          | ToolOutcome.fail stderr =>
            ((false, "FFmpeg执行失败: " ++ stderr), effs1 ++ [Eff.removeTemp temp_list_file])
          | ToolOutcome.ok =>
            ((true, full_output_path), effs1 ++ [Eff.removeTemp temp_list_file])

/-- Python's `f"{episode_num:02d}"` for a natural number. -/
def format02 (n : ℕ) : String :=
  if n < 10 then "0" ++ toString n else toString n

/-- The grouping loop of `merge_videos` in isolation: starting from the
current group `cur` with accumulated duration `curD`, size `curS` and episode
counter `ep`, process the remaining files and return the sealed groups, each
paired with the episode number it is merged under.  A group is sealed when it
is non-empty and adding the next file would push the accumulated duration
over `maxD` (if `maxD > 0`) or the accumulated size over `maxS` (if
`maxS > 0`); the final non-empty group is flushed after the loop. -/
def sealLoop (dur size : String → ℚ) (maxD maxS : ℚ) :
    List String → List String → ℚ → ℚ → ℕ → List (ℕ × List String)
  | [], cur, _, _, ep => if cur.isEmpty then [] else [(ep, cur)]
  | f :: fs, cur, curD, curS, ep =>
    let file_size := size f
    let file_duration := dur f
    let would_exceed_duration : Bool := decide (maxD > 0 ∧ curD + file_duration > maxD)
    let would_exceed_size : Bool := decide (maxS > 0 ∧ curS + file_size > maxS)
    if ¬cur.isEmpty ∧ (would_exceed_duration ∨ would_exceed_size) then
      (ep, cur) :: sealLoop dur size maxD maxS fs [f] file_duration file_size (ep + 1)
    else
      sealLoop dur size maxD maxS fs (cur ++ [f]) (curD + file_duration) (curS + file_size) ep

/-- The sealed groups (with their episode numbers) produced by `merge_videos`
for a given file list, starting episode `ep0`, and per-file duration and size
readings. -/
def sealedGroups (dur size : String → ℚ) (maxD maxS : ℚ)
    (files : List String) (ep0 : ℕ) : List (ℕ × List String) :=
  sealLoop dur size maxD maxS files [] 0 0 ep0

/-- Environment for the whole orchestrator: the merge-step environment plus
the duration probe and `os.path.getsize` (whose failure raises `OSError`,
modelled as `none`). -/
structure OrchEnv where
  step : Env
  durProbe : String → Option ℚ
  size : String → Option ℚ

/-- Loop of `merge_videos`: like `sealLoop` but performing the merge step on
each sealed group and collecting the `(success, text)` results.  A failing
`os.path.getsize` raises out of the loop, modelled as `Except.error` naming
the offending file. -/
def mergeLoop (env : OrchEnv) (output_dir show_name season : String)
    (maxD maxS : ℚ) :
    List String → List String → ℚ → ℚ → ℕ → Except String (List (Bool × String))
  | [], cur, _, _, ep =>
    .ok (if cur.isEmpty then []
         else [(merge_videos_ffmpeg env.step cur output_dir show_name season (format02 ep)).1])
  | f :: fs, cur, curD, curS, ep =>
    match env.size f with
    | none => .error ("OSError: " ++ f)
    | some file_size =>
      let file_duration := get_video_duration env.durProbe f
      let would_exceed_duration : Bool := decide (maxD > 0 ∧ curD + file_duration > maxD)
      let would_exceed_size : Bool := decide (maxS > 0 ∧ curS + file_size > maxS)
      if ¬cur.isEmpty ∧ (would_exceed_duration ∨ would_exceed_size) then
        let r := (merge_videos_ffmpeg env.step cur output_dir show_name season (format02 ep)).1
        (mergeLoop env output_dir show_name season maxD maxS fs [f] file_duration file_size
          (ep + 1)).map (r :: ·)
      else
        mergeLoop env output_dir show_name season maxD maxS fs (cur ++ [f])
          (curD + file_duration) (curS + file_size) ep

/-- `merge_videos` from the file list onward (the file list is the sorted
output of `get_video_files`; thresholds are already converted to seconds and
bytes, the starting episode already parsed). -/
def merge_videos (env : OrchEnv) (files : List String)
    (output_dir show_name season : String) (maxD maxS : ℚ) (ep0 : ℕ) :
    Except String (List (Bool × String)) :=
  if files.isEmpty then .ok [(false, "没有视频文件需要合并")]
  else mergeLoop env output_dir show_name season maxD maxS files [] 0 0 ep0

/-- Characters before the first occurrence of `t`, and the remainder after
it; `none` when `t` does not occur. -/
def breakAt (t : Char) : List Char → Option (List Char × List Char)
  | [] => none
  | c :: cs =>
    if c = t then some ([], cs)
    else (breakAt t cs).map fun p => (c :: p.1, p.2)

theorem breakAt_length {t : Char} :
    ∀ {l : List Char} {p : List Char × List Char},
      breakAt t l = some p → p.2.length < l.length := by
  intro l
  induction l with
  | nil => intro p h; simp [breakAt] at h
  | cons c cs ih =>
    intro p h
    by_cases hc : c = t
    · rw [breakAt, if_pos hc] at h
      cases h
      simp
    · rw [breakAt, if_neg hc] at h
      rw [Option.map_eq_some'] at h
      obtain ⟨q, hq, hqp⟩ := h
      have := ih hq
      subst hqp
      simp only [List.length_cons]
      omega

/-- `re.search(r'《(.*?)》', s)`: the content of the leftmost, shortest
bracketed-quote group — the text between the first `《` and the first `》`
after it — or `none` when no such pair exists. -/
def extractQuoted : List Char → Option (List Char)
  | [] => none
  | c :: cs =>
    if c = '《' then (breakAt '》' cs).map Prod.fst
    else extractQuoted cs

theorem length_dropWhile_le (p : Char → Bool) :
    ∀ l : List Char, (l.dropWhile p).length ≤ l.length := by
  intro l
  induction l with
  | nil => simp
  | cons x xs ih =>
    rw [List.dropWhile]
    by_cases h : p x
    · simp only [h, List.length_cons]
      omega
    · simp [h]

/-- `re.sub(r'\d+', ' ', s)`: each maximal run of decimal digits becomes a
single space (Python's `\d` is modelled as the ASCII decimal digits). -/
def subDigits : List Char → List Char
  | [] => []
  | c :: cs =>
    if c.isDigit then ' ' :: subDigits (cs.dropWhile Char.isDigit)
    else c :: subDigits cs
termination_by l => l.length
decreasing_by
  · have := length_dropWhile_le Char.isDigit cs
    simp only [List.length_cons]
    omega
  · simp only [List.length_cons]
    omega

/-- `str.replace(a, b)` character-for-character. -/
def replaceChar (a b : Char) (l : List Char) : List Char :=
  l.map fun c => if c = a then b else c

/-- `re.sub(op ++ '.*?' ++ cl, ' ', s)`: each leftmost shortest bracketed
group, delimiters included, becomes a single space; an `op` with no later
`cl` is left alone. -/
def subBetween (op cl : Char) : List Char → List Char
  | [] => []
  | c :: cs =>
    if c = op then
      match h : breakAt cl cs with
      | some p => ' ' :: subBetween op cl p.2
      | none => c :: subBetween op cl cs
    else c :: subBetween op cl cs
termination_by l => l.length
decreasing_by
  · have := breakAt_length h
    simp only [List.length_cons]
    omega
  · simp only [List.length_cons]
    omega
  · simp only [List.length_cons]
    omega

/-- The cleaning pipeline applied by `get_show_name_from_dir` when the name
has no `《...》` group, in source order: digit runs, then `-` and `.`, then
the four bracket pairs, then stray `《`/`》`, all turned into spaces. -/
def cleanName (l : List Char) : List Char :=
  replaceChar '《' ' ' (replaceChar '》' ' '
    (subBetween '【' '】' (subBetween '[' ']'
      (subBetween '(' ')' (subBetween '（' '）'
        (replaceChar '.' ' ' (replaceChar '-' ' ' (subDigits l))))))))

/-- `s.strip().split()`: the whitespace-delimited tokens, in order, with no
empty tokens. -/
def tokenize : List Char → List (List Char)
  | [] => []
  | c :: cs =>
    if c.isWhitespace then tokenize cs
    else (c :: cs.takeWhile (fun x => ¬ x.isWhitespace)) ::
           tokenize (cs.dropWhile (fun x => ¬ x.isWhitespace))
termination_by l => l.length
decreasing_by
  · simp only [List.length_cons]
    omega
  · have := length_dropWhile_le (fun x : Char => ¬ x.isWhitespace) cs
    simp only [List.length_cons]
    omega

/-- `get_show_name_from_dir(source_dir)`: prefer the `《...》` content of the
base name; otherwise clean the base name and return its first token, or the
empty string when no token remains. -/
def get_show_name_from_dir (source_dir : String) : String :=
  let origin_name := basenameL source_dir.data
  match extractQuoted origin_name with
  | some inner => String.mk inner
  | none =>
    match tokenize (cleanName origin_name) with
    | [] => ""
    | t :: _ => String.mk t

/-- A tail segment on which the checker finds nothing wrong: every file's
probe succeeds with a non-empty dict whose compared fields agree with the
baseline. -/
def GoodTail (md : String → Option Metadata) (base : Metadata)
    (fs : List String) : Prop :=
  ∀ f ∈ fs, ∃ m, md f = some m ∧ m.isEmpty = false ∧ ConsistentWith base m

/-- Every mismatched field (present on both sides, values unequal) has its
rendered `"key: base vs current"` entry in `checkOne base m`. -/
def MismatchListed (base m : Metadata) : Prop :=
  (∀ b c, base.width = some b → m.width = some c → b ≠ c →
    ("width: " ++ toString b ++ " vs " ++ toString c) ∈ checkOne base m) ∧
  (∀ b c, base.height = some b → m.height = some c → b ≠ c →
    ("height: " ++ toString b ++ " vs " ++ toString c) ∈ checkOne base m) ∧
  (∀ b c, base.frame_rate = some b → m.frame_rate = some c → b ≠ c →
    ("frame_rate: " ++ b ++ " vs " ++ c) ∈ checkOne base m) ∧
  (∀ b c, base.video_codec = some b → m.video_codec = some c → b ≠ c →
    ("video_codec: " ++ b ++ " vs " ++ c) ∈ checkOne base m) ∧
  (∀ b c, base.audio_codec = some b → m.audio_codec = some c → b ≠ c →
    ("audio_codec: " ++ b ++ " vs " ++ c) ∈ checkOne base m)

theorem mismatchEntry_eq_nil_iff {α : Type} [DecidableEq α] (msg : α → α → String)
    (b? c? : Option α) :
    mismatchEntry msg b? c? = [] ↔ ∀ b c, b? = some b → c? = some c → b = c := by
  cases b? with
  | none => simp [mismatchEntry]
  | some b =>
    cases c? with
    | none => simp [mismatchEntry]
    | some c =>
      by_cases h : b = c
      · simp [mismatchEntry, h]
      · simp [mismatchEntry, h]

theorem checkOne_eq_nil_iff (base m : Metadata) :
    checkOne base m = [] ↔ ConsistentWith base m := by
  unfold checkOne ConsistentWith
  simp only [List.append_eq_nil, mismatchEntry_eq_nil_iff]
  tauto

theorem mem_checkOne_of_mismatch (base m : Metadata) : MismatchListed base m := by
  unfold MismatchListed checkOne
  refine ⟨?_, ?_, ?_, ?_, ?_⟩ <;>
    · intro b c hb hc hne
      simp [hb, hc, mismatchEntry, hne]

theorem checkLoop_all_good (md : String → Option Metadata) (base : Metadata) :
    ∀ fs, GoodTail md base fs → checkLoop md base fs = (true, "所有视频参数一致") := by
  intro fs
  induction fs with
  | nil => intro _; rfl
  | cons f fs ih =>
    intro hg
    obtain ⟨m, hm, hne, hcons⟩ := hg f (by simp)
    have hnil : checkOne base m = [] := (checkOne_eq_nil_iff base m).mpr hcons
    rw [checkLoop, hm]
    simp only [hne, Bool.false_eq_true, if_false, hnil]
    exact ih fun g hgm => hg g (by simp [hgm])

theorem checkLoop_first_bad (md : String → Option Metadata) (base : Metadata)
    (f : String) (m : Metadata) (hm : md f = some m) (hne : m.isEmpty = false)
    (hbad : ¬ ConsistentWith base m) :
    ∀ pre post, GoodTail md base pre →
      checkLoop md base (pre ++ f :: post) =
        (false, "视频参数不一致: " ++ f ++ ", " ++
          String.intercalate ", " (checkOne base m)) ∧
      checkLoop md base (pre ++ f :: post) = checkLoop md base (pre ++ [f]) := by
  have hnn : ¬ checkOne base m = [] := fun h => hbad ((checkOne_eq_nil_iff base m).mp h)
  intro pre
  induction pre with
  | nil =>
    intro post _
    constructor <;>
      · simp only [List.nil_append, checkLoop, hm, hne, Bool.false_eq_true, if_false]
        simp [List.isEmpty_iff, hnn]
  | cons g gs ih =>
    intro post hg
    obtain ⟨mg, hmg, hneg, hconsg⟩ := hg g (by simp)
    have hnil : checkOne base mg = [] := (checkOne_eq_nil_iff base mg).mpr hconsg
    have htail : GoodTail md base gs := fun x hx => hg x (by simp [hx])
    have hstep : ∀ rest, checkLoop md base (g :: rest) = checkLoop md base rest := by
      intro rest
      simp only [checkLoop, hmg, hneg, Bool.false_eq_true, if_false, hnil]
      simp
    refine ⟨?_, ?_⟩
    · rw [List.cons_append, hstep]
      exact (ih post htail).1
    · rw [List.cons_append, List.cons_append, hstep, hstep]
      exact (ih post htail).2

theorem consistentWith_refl (m : Metadata) : ConsistentWith m m := by
  unfold ConsistentWith
  refine ⟨?_, ?_, ?_, ?_, ?_⟩ <;> · intro b c hb hc; rw [hb] at hc; exact (Option.some_inj.mp hc)

/-- C4: for every non-empty file list whose baseline probe succeeds (with a
non-empty dict), the consistency checker (1) returns the success pair when
every later file probes to a non-empty dict agreeing with the baseline on
every field present on both sides; (2) on the first file disagreeing with the
baseline it returns `false` with the message naming that file and the
rendered mismatched field/value pairs, and the result is unchanged if the
files after that one are discarded (it scans no further); (3) the mismatch
list is empty exactly when every one of the five compared fields, where
present on both sides, agrees (a field missing on either side is skipped);
(4) every mismatched field's rendered pair appears in the mismatch list. -/
theorem c4_consistency_checker_contract (md : String → Option Metadata)
    (f0 : String) (rest : List String) (base : Metadata)
    (hb : md f0 = some base) (hne : base.isEmpty = false) :
    (GoodTail md base rest →
      check_video_parameters_consistency md (f0 :: rest) = (true, "所有视频参数一致")) ∧
    (∀ pre f post m, rest = pre ++ f :: post → GoodTail md base pre →
      md f = some m → m.isEmpty = false → ¬ ConsistentWith base m →
      check_video_parameters_consistency md (f0 :: rest) =
        (false, "视频参数不一致: " ++ f ++ ", " ++
          String.intercalate ", " (checkOne base m)) ∧
      check_video_parameters_consistency md (f0 :: rest) =
        check_video_parameters_consistency md (f0 :: (pre ++ [f]))) ∧
    (∀ m, (checkOne base m = [] ↔ ConsistentWith base m)) ∧
    (∀ m, MismatchListed base m) := by
  have hcheck : ∀ fs,
      check_video_parameters_consistency md (f0 :: fs) = checkLoop md base fs := by
    intro fs
    simp only [check_video_parameters_consistency, hb, hne, Bool.false_eq_true, if_false]
  refine ⟨?_, ?_, ?_, ?_⟩
  · intro hg
    rw [hcheck]
    exact checkLoop_all_good md base rest hg
  · intro pre f post m hrest hg hm hnem hbad
    subst hrest
    have h := checkLoop_first_bad md base f m hm hnem hbad pre post hg
    rw [hcheck, hcheck]
    exact ⟨h.1, h.2⟩
  · exact fun m => checkOne_eq_nil_iff base m
  · exact fun m => mem_checkOne_of_mismatch base m

/-- A fully populated baseline profile used in concrete witnesses. -/
def mdGood : Metadata := ⟨some 1920, some 1080, some "30/1", some "h264", some "aac"⟩

/-- The same profile with a different width. -/
def mdBadWidth : Metadata := ⟨some 1280, some 1080, some "30/1", some "h264", some "aac"⟩

/-- A concrete probe: `c.mp4` has the deviant width, everything else matches
the baseline. -/
def probeW : String → Option Metadata := fun f =>
  if f = "c.mp4" then some mdBadWidth else some mdGood

theorem c4_consistency_checker_contract_witness :
    check_video_parameters_consistency probeW ["a.mp4", "b.mp4"] =
      (true, "所有视频参数一致") ∧
    check_video_parameters_consistency probeW ["a.mp4", "b.mp4", "c.mp4", "d.mp4"] =
      (false, "视频参数不一致: c.mp4, width: 1920 vs 1280") := by
  have hgood : ∀ f, f ≠ "c.mp4" → probeW f = some mdGood := by
    intro f hf
    simp [probeW, hf]
  have hcons : ConsistentWith mdGood mdGood := consistentWith_refl mdGood
  have hbad : ¬ ConsistentWith mdGood mdBadWidth := by
    intro h
    have := h.1 1920 1280 rfl rfl
    omega
  have h1 := c4_consistency_checker_contract probeW "a.mp4" ["b.mp4"] mdGood
    (by decide) rfl
  have h2 := c4_consistency_checker_contract probeW "a.mp4" ["b.mp4", "c.mp4", "d.mp4"]
    mdGood (by decide) rfl
  constructor
  · exact h1.1 (by
      intro f hf
      simp only [List.mem_singleton] at hf
      exact ⟨mdGood, by rw [hf]; decide, rfl, hcons⟩)
  · have := (h2.2.1 ["b.mp4"] "c.mp4" ["d.mp4"] mdBadWidth rfl
      (by
        intro f hf
        simp only [List.mem_singleton] at hf
        exact ⟨mdGood, by rw [hf]; decide, rfl, hcons⟩)
      (by decide) rfl hbad).1
    rw [this]
    decide

/-- C10: on the empty file list the consistency checker returns the success
flag with its "nothing to check" message, independently of the metadata
probe — an empty group is vacuously consistent and no probe result is ever
consulted. -/
theorem c10_consistency_empty_vacuous (md md' : String → Option Metadata) :
    check_video_parameters_consistency md [] = (true, "无视频文件需要检查") ∧
    check_video_parameters_consistency md [] =
      check_video_parameters_consistency md' [] :=
  ⟨rfl, rfl⟩

theorem ne_nil_of_isEmpty_false {α : Type} {l : List α} (h : ¬ l.isEmpty = true) :
    l ≠ [] := by
  cases l with
  | nil => simp at h
  | cons a as => simp

theorem sealLoop_flatten (dur size : String → ℚ) (maxD maxS : ℚ) :
    ∀ (fs cur : List String) (curD curS : ℚ) (ep : ℕ),
      ((sealLoop dur size maxD maxS fs cur curD curS ep).map Prod.snd).flatten =
        cur ++ fs := by
  intro fs
  induction fs with
  | nil =>
    intro cur curD curS ep
    by_cases h : cur.isEmpty
    · have hc : cur = [] := List.isEmpty_iff.mp h
      simp [sealLoop, h, hc]
    · simp [sealLoop, h]
  | cons f fs ih =>
    intro cur curD curS ep
    simp only [sealLoop]
    split
    · simp only [List.map_cons, List.flatten_cons, ih]
      simp
    · rw [ih]
      simp

theorem sealLoop_groups_ne_nil (dur size : String → ℚ) (maxD maxS : ℚ) :
    ∀ (fs cur : List String) (curD curS : ℚ) (ep : ℕ),
      ∀ p ∈ sealLoop dur size maxD maxS fs cur curD curS ep, p.2 ≠ [] := by
  intro fs
  induction fs with
  | nil =>
    intro cur curD curS ep p hp
    by_cases h : cur.isEmpty
    · simp [sealLoop, h] at hp
    · simp only [sealLoop, if_neg h, List.mem_singleton] at hp
      subst hp
      exact ne_nil_of_isEmpty_false h
  | cons f fs ih =>
    intro cur curD curS ep p hp
    simp only [sealLoop] at hp
    revert hp
    split
    · rename_i hcond
      intro hp
      rcases List.mem_cons.mp hp with h1 | h2
      · subst h1
        exact ne_nil_of_isEmpty_false hcond.1
      · exact ih _ _ _ _ p h2
    · intro hp
      exact ih _ _ _ _ p hp

theorem sealLoop_bounds (dur size : String → ℚ) (maxD maxS : ℚ) :
    ∀ (fs cur : List String) (ep : ℕ),
      (2 ≤ cur.length →
        (maxD > 0 → (cur.map dur).sum ≤ maxD) ∧
        (maxS > 0 → (cur.map size).sum ≤ maxS)) →
      ∀ p ∈ sealLoop dur size maxD maxS fs cur ((cur.map dur).sum)
              ((cur.map size).sum) ep,
        (maxD > 0 → p.2.length = 1 ∨ (p.2.map dur).sum ≤ maxD) ∧
        (maxS > 0 → p.2.length = 1 ∨ (p.2.map size).sum ≤ maxS) := by
  intro fs
  induction fs with
  | nil =>
    intro cur ep hinv p hp
    by_cases h : cur.isEmpty
    · simp [sealLoop, h] at hp
    · simp only [sealLoop, if_neg h, List.mem_singleton] at hp
      subst hp
      rcases Nat.lt_or_ge cur.length 2 with hl | hl
      · have hone : cur.length = 1 := by
          have hnn : cur ≠ [] := ne_nil_of_isEmpty_false h
          have := List.length_pos.mpr hnn
          omega
        exact ⟨fun _ => Or.inl hone, fun _ => Or.inl hone⟩
      · exact ⟨fun hD => Or.inr ((hinv hl).1 hD), fun hS => Or.inr ((hinv hl).2 hS)⟩
  | cons f fs ih =>
    intro cur ep hinv p hp
    simp only [sealLoop] at hp
    revert hp
    split
    · rename_i hcond
      intro hp
      rcases List.mem_cons.mp hp with h1 | h2
      · subst h1
        rcases Nat.lt_or_ge cur.length 2 with hl | hl
        · have hone : cur.length = 1 := by
            have hnn : cur ≠ [] := ne_nil_of_isEmpty_false hcond.1
            have := List.length_pos.mpr hnn
            omega
          exact ⟨fun _ => Or.inl hone, fun _ => Or.inl hone⟩
        · exact ⟨fun hD => Or.inr ((hinv hl).1 hD), fun hS => Or.inr ((hinv hl).2 hS)⟩
      · have hf : dur f = ([f].map dur).sum := by simp
        have hfs : size f = ([f].map size).sum := by simp
        rw [hf, hfs] at h2
        refine ih [f] (ep + 1) ?_ p h2
        intro habs
        simp at habs
    · rename_i hcond
      intro hp
      have hsum : (cur.map dur).sum + dur f = ((cur ++ [f]).map dur).sum := by simp
      have hsum2 : (cur.map size).sum + size f = ((cur ++ [f]).map size).sum := by simp
      rw [hsum, hsum2] at hp
      refine ih (cur ++ [f]) ep ?_ p hp
      intro hlen
      by_cases hc : cur.isEmpty
      · have hnil : cur = [] := List.isEmpty_iff.mp hc
        subst hnil
        simp at hlen
      · constructor
        · intro hD
          by_contra hgt0
          apply hcond
          refine ⟨hc, Or.inl ?_⟩
          simp only [decide_eq_true_eq]
          refine ⟨hD, ?_⟩
          rw [hsum]
          exact lt_of_not_le hgt0
        · intro hS
          by_contra hgt0
          apply hcond
          refine ⟨hc, Or.inr ?_⟩
          simp only [decide_eq_true_eq]
          refine ⟨hS, ?_⟩
          rw [hsum2]
          exact lt_of_not_le hgt0

theorem sealLoop_episodes (dur size : String → ℚ) (maxD maxS : ℚ) :
    ∀ (fs cur : List String) (curD curS : ℚ) (ep : ℕ),
      (sealLoop dur size maxD maxS fs cur curD curS ep).map Prod.fst =
        List.range' ep (sealLoop dur size maxD maxS fs cur curD curS ep).length := by
  intro fs
  induction fs with
  | nil =>
    intro cur curD curS ep
    by_cases h : cur.isEmpty
    · simp [sealLoop, h]
    · simp [sealLoop, h]
  | cons f fs ih =>
    intro cur curD curS ep
    simp only [sealLoop]
    split
    · simp only [List.map_cons, List.length_cons, ih]
      rw [List.range'_succ ep _ 1]
    · exact ih _ _ _ _

/-- When every `os.path.getsize` call succeeds, the orchestrator loop is the
grouping loop followed by one merge step per sealed group, in order. -/
theorem mergeLoop_eq_sealLoop (env : OrchEnv) (outd sn se : String)
    (maxD maxS : ℚ) :
    ∀ (fs cur : List String) (curD curS : ℚ) (ep : ℕ),
      (∀ f ∈ fs, (env.size f).isSome) →
      mergeLoop env outd sn se maxD maxS fs cur curD curS ep =
        .ok ((sealLoop (get_video_duration env.durProbe)
                (fun f => (env.size f).getD 0) maxD maxS fs cur curD curS ep).map
          (fun p => (merge_videos_ffmpeg env.step p.2 outd sn se (format02 p.1)).1)) := by
  intro fs
  induction fs with
  | nil =>
    intro cur curD curS ep _
    by_cases h : cur.isEmpty
    · simp [mergeLoop, sealLoop, h]
    · simp [mergeLoop, sealLoop, h]
  | cons f fs ih =>
    intro cur curD curS ep hsz
    obtain ⟨s, hs⟩ := Option.isSome_iff_exists.mp (hsz f (by simp))
    have hrest : ∀ g ∈ fs, (env.size g).isSome := fun g hg => hsz g (by simp [hg])
    simp only [mergeLoop, sealLoop, hs, Option.getD_some]
    split_ifs with hcond
    · rw [ih _ _ _ _ hrest]
      rfl
    · exact ih _ _ _ _ hrest

/-- C1: the grouping pass of `merge_videos` partitions the input file list
exactly: the concatenation of the sealed groups, in group order, is the input
list (no duplicates, no omissions, no file dropped even if it alone exceeds a
threshold), every sealed group is non-empty, and — when every size probe
succeeds — `merge_videos` on a non-empty list returns exactly one merge-step
result per sealed group, in that order. -/
theorem c1_grouping_partitions_input (env : OrchEnv) (files : List String)
    (outd sn se : String) (maxD maxS : ℚ) (ep0 : ℕ)
    (hsz : ∀ f ∈ files, (env.size f).isSome) :
    ((sealedGroups (get_video_duration env.durProbe)
        (fun f => (env.size f).getD 0) maxD maxS files ep0).map Prod.snd).flatten
      = files ∧
    (∀ p ∈ sealedGroups (get_video_duration env.durProbe)
        (fun f => (env.size f).getD 0) maxD maxS files ep0, p.2 ≠ []) ∧
    (¬ files.isEmpty →
      merge_videos env files outd sn se maxD maxS ep0 =
        .ok ((sealedGroups (get_video_duration env.durProbe)
                (fun f => (env.size f).getD 0) maxD maxS files ep0).map
          (fun p => (merge_videos_ffmpeg env.step p.2 outd sn se (format02 p.1)).1))) := by
  refine ⟨?_, ?_, ?_⟩
  · simpa using sealLoop_flatten (get_video_duration env.durProbe)
      (fun f => (env.size f).getD 0) maxD maxS files [] 0 0 ep0
  · exact fun p hp => sealLoop_groups_ne_nil _ _ maxD maxS files [] 0 0 ep0 p hp
  · intro hne
    rw [merge_videos, if_neg hne]
    exact mergeLoop_eq_sealLoop env outd sn se maxD maxS files [] 0 0 ep0 hsz

/-- Durations of the three-file scenario of the spec: 600 s, 400 s, 500 s. -/
def durW : String → Option ℚ := fun f =>
  if f = "f1" then some 600 else if f = "f2" then some 400 else some 500

/-- Sizes of the three-file scenario: 100 MB each. -/
def sizeW : String → Option ℚ := fun _ => some 104857600

/-- A fully successful merge-step environment: all probes agree, nothing
exists yet, writes succeed, ffmpeg succeeds. -/
def envE : Env :=
  ⟨fun _ => some mdGood, fun _ => false, fun _ => true, fun _ => "",
    fun _ _ => ToolOutcome.ok⟩

/-- A fully successful orchestrator environment over the scenario files. -/
def envW : OrchEnv := ⟨envE, durW, sizeW⟩

theorem c1_grouping_partitions_input_witness :
    ((sealedGroups (get_video_duration envW.durProbe)
        (fun f => (envW.size f).getD 0) 1200 0 ["f1", "f2", "f3"] 1).map
      Prod.snd).flatten = ["f1", "f2", "f3"] :=
  (c1_grouping_partitions_input envW ["f1", "f2", "f3"] "out" "Show" "01" 1200 0 1
    (fun _ _ => rfl)).1

/-- C2: every sealed group either is a single file or respects the positive
thresholds: with `maxDuration > 0` a multi-file group's total duration (the
accumulation before the file that triggered sealing, which starts the next
group) is at most `maxDuration`, and likewise for `maxSize`. -/
theorem c2_groups_respect_thresholds (dur size : String → ℚ) (maxD maxS : ℚ)
    (files : List String) (ep0 : ℕ) :
    ∀ p ∈ sealedGroups dur size maxD maxS files ep0,
      (maxD > 0 → p.2.length = 1 ∨ (p.2.map dur).sum ≤ maxD) ∧
      (maxS > 0 → p.2.length = 1 ∨ (p.2.map size).sum ≤ maxS) := by
  intro p hp
  have h0d : ((([] : List String)).map dur).sum = 0 := rfl
  have h0s : ((([] : List String)).map size).sum = 0 := rfl
  refine sealLoop_bounds dur size maxD maxS files [] ep0 ?_ p ?_
  · intro habs
    simp at habs
  · rw [h0d, h0s]
    exact hp

/-- Total duration function of the scenario files. -/
def durQ : String → ℚ := fun f =>
  if f = "f1" then 600 else if f = "f2" then 400 else 500

/-- Total size function of the scenario files. -/
def sizeQ : String → ℚ := fun _ => 104857600

theorem c2_groups_respect_thresholds_witness :
    ((1, ["f1", "f2"]) : ℕ × List String).2.length = 1 ∨
      ((((1, ["f1", "f2"]) : ℕ × List String).2.map durQ)).sum ≤ 1200 :=
  (c2_groups_respect_thresholds durQ sizeQ 1200 0 ["f1", "f2", "f3"] 1
    (1, ["f1", "f2"])
    (by
      have hseal : sealedGroups durQ sizeQ 1200 0 ["f1", "f2", "f3"] 1 =
          [(1, ["f1", "f2"]), (2, ["f3"])] := by
        simp [sealedGroups, sealLoop, durQ, sizeQ]
        norm_num
      rw [hseal]
      simp)).1 (by norm_num)

/-- C3: the episode numbers paired with the sealed groups are exactly
`ep0, ep0+1, ep0+2, …` — strictly increasing by one from the caller-supplied
start, none skipped, none reused; they are determined by the grouping alone
(the merge environment, and hence per-group success or failure, does not
appear in `sealedGroups`), and by C1's last clause each group's merge step is
invoked with precisely its number. -/
theorem c3_episode_numbers_sequential (dur size : String → ℚ) (maxD maxS : ℚ)
    (files : List String) (ep0 : ℕ) :
    (sealedGroups dur size maxD maxS files ep0).map Prod.fst =
      List.range' ep0 (sealedGroups dur size maxD maxS files ep0).length :=
  sealLoop_episodes dur size maxD maxS files [] 0 0 ep0

/-- C5 counterexample: a fully successful merge step returns `true` paired
with the full output path `out/Show_S01E01.mp4`, which is not the bare
computed file name `Show_S01E01.mp4`. -/
theorem c5_success_value_is_full_path_counterexample :
    (merge_videos_ffmpeg envE ["a.mp4"] "out" "Show" "01" "01").1 =
      (true, "out/Show_S01E01.mp4") ∧
    ("out/Show_S01E01.mp4" : String) ≠ "Show_S01E01.mp4" := by
  constructor
  · rfl
  · decide

/-- C5 (amended): for every successful per-group merge step (consistency
passed, output absent, manifest written, tool succeeded) the result is
`Success` carrying the full output path — the output directory joined with
the computed file name `{showName}_S{season}E{episodeLabel}.mp4` — not the
bare file name. -/
theorem c5_success_carries_joined_output_path (env : Env) (file_list : List String)
    (output_path show_name season episode : String)
    (hne : ¬ file_list.isEmpty)
    (hok : (check_video_parameters_consistency env.md file_list).1 = true)
    (hex : env.pathExists
      (joinPath output_path (show_name ++ "_S" ++ season ++ "E" ++ episode ++ ".mp4"))
        = false)
    (hw : env.writeOk (joinPath output_path "file_list.txt") = true)
    (hff : env.ffmpeg (joinPath output_path "file_list.txt")
      (joinPath output_path (show_name ++ "_S" ++ season ++ "E" ++ episode ++ ".mp4"))
        = ToolOutcome.ok) :
    (merge_videos_ffmpeg env file_list output_path show_name season episode).1 =
      (true,
        joinPath output_path (show_name ++ "_S" ++ season ++ "E" ++ episode ++ ".mp4")) := by
  rcases hcp : check_video_parameters_consistency env.md file_list with ⟨b, msg⟩
  rw [hcp] at hok
  simp only at hok
  subst hok
  have hEmpty : file_list.isEmpty = false := by
    simpa using hne
  simp only [merge_videos_ffmpeg, hEmpty, Bool.false_eq_true, if_false, hcp, hex, hw, hff]
  simp

theorem c5_success_carries_joined_output_path_witness :
    (merge_videos_ffmpeg envE ["b.mp4"] "out" "S" "02" "07").1 =
      (true, joinPath "out" ("S" ++ "_S" ++ "02" ++ "E" ++ "07" ++ ".mp4")) :=
  c5_success_carries_joined_output_path envE ["b.mp4"] "out" "S" "02" "07"
    (by decide) rfl rfl rfl rfl

/-- C6: when the computed output path already exists, the merge step fails
with the "output already exists" message, and its effect trace shows that the
external tool is never invoked and nothing is written or removed — the
existing file is left untouched. -/
theorem c6_existing_output_never_overwritten (env : Env) (file_list : List String)
    (output_path show_name season episode : String)
    (hne : ¬ file_list.isEmpty)
    (hok : (check_video_parameters_consistency env.md file_list).1 = true)
    (hex : env.pathExists
      (joinPath output_path (show_name ++ "_S" ++ season ++ "E" ++ episode ++ ".mp4"))
        = true) :
    (merge_videos_ffmpeg env file_list output_path show_name season episode).1 =
      (false, "输出文件已存在: " ++
        joinPath output_path (show_name ++ "_S" ++ season ++ "E" ++ episode ++ ".mp4")) ∧
    (∀ lf op, Eff.runTool lf op ∉
      (merge_videos_ffmpeg env file_list output_path show_name season episode).2) ∧
    (∀ p c, Eff.writeTemp p c ∉
      (merge_videos_ffmpeg env file_list output_path show_name season episode).2) ∧
    (∀ p, Eff.removeTemp p ∉
      (merge_videos_ffmpeg env file_list output_path show_name season episode).2) := by
  rcases hcp : check_video_parameters_consistency env.md file_list with ⟨b, msg⟩
  rw [hcp] at hok
  simp only at hok
  subst hok
  have hEmpty : file_list.isEmpty = false := by
    simpa using hne
  have hred : merge_videos_ffmpeg env file_list output_path show_name season episode =
      ((false, "输出文件已存在: " ++
          joinPath output_path (show_name ++ "_S" ++ season ++ "E" ++ episode ++ ".mp4")),
        if dirname output_path ≠ "" ∧ env.pathExists (dirname output_path) = false then
          [Eff.makeDirs (dirname output_path)]
        else []) := by
    simp only [merge_videos_ffmpeg, hEmpty, Bool.false_eq_true, if_false, hcp, hex, if_true]
  rw [hred]
  refine ⟨rfl, ?_, ?_, ?_⟩ <;>
    · intros
      split <;> simp

theorem c6_existing_output_never_overwritten_witness :
    (merge_videos_ffmpeg ⟨fun _ => some mdGood, fun _ => true, fun _ => true,
        fun _ => "", fun _ _ => ToolOutcome.ok⟩ ["a.mp4"] "out" "Show" "01" "01").1 =
      (false, "输出文件已存在: " ++ joinPath "out"
        ("Show" ++ "_S" ++ "01" ++ "E" ++ "01" ++ ".mp4")) :=
  (c6_existing_output_never_overwritten ⟨fun _ => some mdGood, fun _ => true,
    fun _ => true, fun _ => "", fun _ _ => ToolOutcome.ok⟩ ["a.mp4"] "out" "Show" "01" "01"
    (by decide) rfl rfl).1

/-- Merge-step environment reproducing a missing output directory: the parent
`/out` exists, the output directory `/out/videos` does not, so the manifest
write fails. -/
def envM : Env :=
  ⟨fun _ => some mdGood,
   fun p => if p = "/out" then true else false,
   fun _ => false,
   fun _ => "No such file or directory",
   fun _ _ => ToolOutcome.ok⟩

/-- C7 (code bug): the code computes `output_dir = os.path.dirname(output_path)`
— the parent of the output directory — so with the output directory
`/out/videos` missing (its parent `/out` present) the step performs no
`makedirs` at all, never creates `/out/videos`, and fails on the manifest
write, contradicting the code's own intent ("确保输出目录存在"). -/
theorem c7_output_directory_not_created :
    dirname "/out/videos" = "/out" ∧
    (merge_videos_ffmpeg envM ["a.mp4"] "/out/videos" "Show" "01" "01").2 = [] ∧
    (merge_videos_ffmpeg envM ["a.mp4"] "/out/videos" "Show" "01" "01").1 =
      (false, "合并视频时发生错误: No such file or directory") := by
  refine ⟨by decide, rfl, rfl⟩

/-- C8 counterexample: with `os.path.getsize` failing on `a.mp4` the whole
run aborts with the raised error (first conjunct) instead of degrading the
size to 0 and continuing, which — as the second conjunct shows on the same
input with the size reading back 0 — would have produced a successful result
list. -/
theorem c8_size_probe_failure_aborts_counterexample :
    merge_videos ⟨envE, fun _ => some 10, fun _ => none⟩ ["a.mp4"]
        "out" "Show" "01" 0 0 1 = Except.error "OSError: a.mp4" ∧
    merge_videos ⟨envE, fun _ => some 10, fun _ => some 0⟩ ["a.mp4"]
        "out" "Show" "01" 0 0 1 = Except.ok [(true, "out/Show_S01E01.mp4")] :=
  ⟨rfl, rfl⟩

/-- C8 (amended): a failure to probe a file's duration degrades that duration
to 0 and is never fatal — whenever every size reading succeeds the orchestrator
returns a result list no matter how the duration probe behaves; a failure to
read a file's size, by contrast, is unhandled (`os.path.getsize` raises out of
`merge_videos`, aborting the run — see the counterexample). -/
theorem c8_duration_probe_failure_degrades_to_zero (probe : String → Option ℚ)
    (f : String) (hp : probe f = none) :
    get_video_duration probe f = 0 ∧
    (∀ (env : OrchEnv) (files : List String) (outd sn se : String)
        (maxD maxS : ℚ) (ep0 : ℕ),
      (∀ g ∈ files, (env.size g).isSome) →
      ∃ rs, merge_videos env files outd sn se maxD maxS ep0 = Except.ok rs) := by
  constructor
  · simp [get_video_duration, hp]
  · intro env files outd sn se maxD maxS ep0 hsz
    by_cases h : files.isEmpty
    · exact ⟨_, by rw [merge_videos, if_pos h]⟩
    · exact ⟨_, by
        rw [merge_videos, if_neg h]
        exact mergeLoop_eq_sealLoop env outd sn se maxD maxS files [] 0 0 ep0 hsz⟩

theorem c8_duration_probe_failure_degrades_to_zero_witness :
    get_video_duration (fun _ => none) "a.mp4" = 0 ∧
    ∃ rs, merge_videos ⟨envE, fun _ => none, fun _ => some 5⟩ ["a.mp4"]
      "out" "Show" "01" 0 0 1 = Except.ok rs :=
  ⟨(c8_duration_probe_failure_degrades_to_zero (fun _ => none) "a.mp4" rfl).1,
   (c8_duration_probe_failure_degrades_to_zero (fun _ => none) "a.mp4" rfl).2
     ⟨envE, fun _ => none, fun _ => some 5⟩ ["a.mp4"] "out" "Show" "01" 0 0 1
     (fun _ _ => rfl)⟩

theorem basenameL_no_slash {l : List Char} (h : ('/' : Char) ∉ l) :
    basenameL l = l := by
  cases l with
  | nil => rfl
  | cons c cs => rw [basenameL, if_neg h]

theorem breakAt_not_mem_append (t : Char) :
    ∀ (mid post : List Char), t ∉ mid →
      breakAt t (mid ++ t :: post) = some (mid, post) := by
  intro mid
  induction mid with
  | nil =>
    intro post _
    simp [breakAt]
  | cons c cs ih =>
    intro post h
    have hc : c ≠ t := fun hct => h (by simp [hct])
    rw [List.cons_append, breakAt, if_neg hc, ih post (fun hm => h (by simp [hm]))]
    rfl

theorem breakAt_mem_right (t : Char) :
    ∀ {l : List Char} {p : List Char × List Char},
      breakAt t l = some p → ∀ x ∈ p.2, x ∈ l := by
  intro l
  induction l with
  | nil => intro p h; simp [breakAt] at h
  | cons c cs ih =>
    intro p h x hx
    by_cases hc : c = t
    · rw [breakAt, if_pos hc] at h
      cases h
      simp only at hx
      simp [hx]
    · rw [breakAt, if_neg hc] at h
      rw [Option.map_eq_some'] at h
      obtain ⟨q, hq, hqp⟩ := h
      subst hqp
      simp only at hx
      exact List.mem_cons_of_mem c (ih hq x hx)

theorem extractQuoted_append :
    ∀ (pre mid post : List Char), ('《' : Char) ∉ pre → ('》' : Char) ∉ mid →
      extractQuoted (pre ++ '《' :: (mid ++ '》' :: post)) = some mid := by
  intro pre
  induction pre with
  | nil =>
    intro mid post _ hmid
    rw [List.nil_append, extractQuoted, if_pos rfl, breakAt_not_mem_append '》' mid post hmid]
    rfl
  | cons c cs ih =>
    intro mid post hpre hmid
    have hc : c ≠ '《' := fun hq => hpre (by simp [hq])
    rw [List.cons_append, extractQuoted, if_neg hc]
    exact ih mid post (fun hm => hpre (by simp [hm])) hmid

theorem dropWhile_head_not (p : Char → Bool) :
    ∀ {l : List Char} {d : Char} {ds : List Char},
      l.dropWhile p = d :: ds → p d = false := by
  intro l
  induction l with
  | nil => intro d ds h; simp at h
  | cons x xs ih =>
    intro d ds h
    rw [List.dropWhile] at h
    by_cases hx : p x
    · rw [hx] at h
      exact ih h
    · rw [Bool.eq_false_iff.mpr hx] at h
      cases h
      exact Bool.eq_false_iff.mpr hx

theorem mem_of_mem_dropWhile (p : Char → Bool) :
    ∀ {l : List Char} {x : Char}, x ∈ l.dropWhile p → x ∈ l := by
  intro l
  induction l with
  | nil => intro x h; simp at h
  | cons c cs ih =>
    intro x h
    rw [List.dropWhile] at h
    by_cases hc : p c
    · rw [hc] at h
      exact List.mem_cons_of_mem c (ih h)
    · rw [Bool.eq_false_iff.mpr hc] at h
      exact h

theorem tokenize_eq_nil_iff :
    ∀ l : List Char, tokenize l = [] ↔ ∀ c ∈ l, c.isWhitespace := by
  intro l
  induction l with
  | nil => simp [tokenize]
  | cons c cs ih =>
    by_cases hw : c.isWhitespace
    · rw [tokenize, if_pos hw]
      simp [hw, ih]
    · rw [tokenize, if_neg hw]
      simp [hw]

theorem tokenize_head_spec :
    ∀ (l t : List Char) (ts : List (List Char)), tokenize l = t :: ts →
      t ≠ [] ∧ (∀ c ∈ t, ¬ c.isWhitespace) ∧
      ∃ w rest, l = w ++ t ++ rest ∧ (∀ c ∈ w, c.isWhitespace) ∧
        (rest = [] ∨ ∃ d ds, rest = d :: ds ∧ d.isWhitespace) := by
  intro l
  induction l with
  | nil => intro t ts h; simp [tokenize] at h
  | cons c cs ih =>
    intro t ts h
    by_cases hw : c.isWhitespace
    · rw [tokenize, if_pos hw] at h
      obtain ⟨hne, hnw, w, rest, heq, hwall, hrest⟩ := ih t ts h
      refine ⟨hne, hnw, c :: w, rest, by simp [heq], ?_, hrest⟩
      intro x hx
      rcases List.mem_cons.mp hx with h1 | h2
      · rw [h1]; exact hw
      · exact hwall x h2
    · rw [tokenize, if_neg hw] at h
      have ht : t = c :: cs.takeWhile (fun x => ¬ x.isWhitespace) := (List.cons_eq_cons.mp h).1.symm
      refine ⟨by rw [ht]; simp, ?_, [], cs.dropWhile (fun x => ¬ x.isWhitespace), ?_, by simp, ?_⟩
      · intro x hx
        rw [ht] at hx
        rcases List.mem_cons.mp hx with h1 | h2
        · rw [h1]; exact hw
        · have := List.mem_takeWhile_imp h2
          simpa using this
      · rw [ht]
        simp only [List.nil_append, List.cons_append, List.cons.injEq, true_and]
        exact (List.takeWhile_append_dropWhile (fun x => ¬ x.isWhitespace) cs).symm
      · rcases hd : cs.dropWhile (fun x => ¬ x.isWhitespace) with _ | ⟨d, ds⟩
        · exact Or.inl hd
        · refine Or.inr ⟨d, ds, hd, ?_⟩
          have := dropWhile_head_not (fun x => ¬ x.isWhitespace) hd
          simpa using this

theorem mem_subDigits :
    ∀ (l : List Char) (c : Char), c ∈ subDigits l →
      c = ' ' ∨ (c ∈ l ∧ c.isDigit = false) := by
  intro l
  induction l using subDigits.induct with
  | case1 => intro c h; simp [subDigits] at h
  | case2 x cs hx ih =>
    intro c h
    rw [subDigits, if_pos hx] at h
    rcases List.mem_cons.mp h with h1 | h2
    · exact Or.inl h1
    · rcases ih c h2 with h3 | ⟨h4, h5⟩
      · exact Or.inl h3
      · exact Or.inr ⟨List.mem_cons_of_mem x (mem_of_mem_dropWhile Char.isDigit h4), h5⟩
  | case3 x cs hx ih =>
    intro c h
    rw [subDigits, if_neg hx] at h
    rcases List.mem_cons.mp h with h1 | h2
    · subst h1
      exact Or.inr ⟨by simp, Bool.eq_false_iff.mpr hx⟩
    · rcases ih c h2 with h3 | ⟨h4, h5⟩
      · exact Or.inl h3
      · exact Or.inr ⟨List.mem_cons_of_mem x h4, h5⟩

theorem mem_replaceChar (a b : Char) (l : List Char) (c : Char)
    (h : c ∈ replaceChar a b l) : c = b ∨ (c ∈ l ∧ c ≠ a) := by
  unfold replaceChar at h
  rw [List.mem_map] at h
  obtain ⟨x, hx, hxc⟩ := h
  by_cases hxa : x = a
  · rw [if_pos hxa] at hxc
    exact Or.inl hxc.symm
  · rw [if_neg hxa] at hxc
    subst hxc
    exact Or.inr ⟨hx, hxa⟩

theorem mem_subBetween (op cl : Char) :
    ∀ (l : List Char) (c : Char), c ∈ subBetween op cl l → c = ' ' ∨ c ∈ l := by
  intro l
  induction l using subBetween.induct op cl with
  | case1 => intro c h; simp [subBetween] at h
  | case2 cs pr hp ih =>
    intro c h
    rw [subBetween, if_pos rfl] at h
    revert h
    split
    · rename_i q hq
      rw [hp] at hq
      injection hq with hq
      subst hq
      intro h
      rcases List.mem_cons.mp h with h1 | h2
      · exact Or.inl h1
      · rcases ih c h2 with h3 | h4
        · exact Or.inl h3
        · exact Or.inr (List.mem_cons_of_mem op (breakAt_mem_right cl hp c h4))
    · rename_i hq
      rw [hp] at hq
      exact absurd hq (by simp)
  | case3 cs hn ih =>
    intro c h
    rw [subBetween, if_pos rfl] at h
    revert h
    split
    · rename_i q hq
      rw [hn] at hq
      exact absurd hq (by simp)
    · intro h
      rcases List.mem_cons.mp h with h1 | h2
      · exact Or.inr (by simp [h1])
      · rcases ih c h2 with h3 | h4
        · exact Or.inl h3
        · exact Or.inr (List.mem_cons_of_mem op h4)
  | case4 x cs hx ih =>
    intro c h
    rw [subBetween, if_neg hx] at h
    rcases List.mem_cons.mp h with h1 | h2
    · exact Or.inr (by simp [h1])
    · rcases ih c h2 with h3 | h4
      · exact Or.inl h3
      · exact Or.inr (List.mem_cons_of_mem x h4)

/-- Every character surviving the cleaning pipeline is a non-digit, and none
of the stripped separators `-`, `.`, `《`, `》` survives. -/
theorem cleanName_strips (l : List Char) :
    ∀ c ∈ cleanName l,
      c.isDigit = false ∧ c ≠ '-' ∧ c ≠ '.' ∧ c ≠ '《' ∧ c ≠ '》' := by
  intro c hc
  unfold cleanName at hc
  rcases mem_replaceChar '《' ' ' _ c hc with h0 | ⟨hc, hq1⟩
  · subst h0; decide
  rcases mem_replaceChar '》' ' ' _ c hc with h0 | ⟨hc, hq2⟩
  · subst h0; decide
  rcases mem_subBetween '【' '】' _ c hc with h0 | hc
  · subst h0; decide
  rcases mem_subBetween '[' ']' _ c hc with h0 | hc
  · subst h0; decide
  rcases mem_subBetween '(' ')' _ c hc with h0 | hc
  · subst h0; decide
  rcases mem_subBetween '（' '）' _ c hc with h0 | hc
  · subst h0; decide
  rcases mem_replaceChar '.' ' ' _ c hc with h0 | ⟨hc, hdot⟩
  · subst h0; decide
  rcases mem_replaceChar '-' ' ' _ c hc with h0 | ⟨hc, hdash⟩
  · subst h0; decide
  rcases mem_subDigits l c hc with h0 | ⟨_, hdig⟩
  · subst h0; decide
  exact ⟨hdig, hdash, hdot, hq1, hq2⟩

/-- C9: the show-name derivation is a pure function of the directory's base
name.  (1) When the base name contains a `《...》` group (first `《`, nearest
following `》`), the derivation returns exactly the bracketed content.
(2) Otherwise it tokenizes the cleaned base name: if only whitespace remains
it returns the empty string, and otherwise it returns exactly the first
whitespace-delimited token of the cleaned name (non-empty, whitespace-free,
preceded only by whitespace and followed by whitespace or nothing).
(3) The cleaning pass strips every digit and every `-`, `.`, `《`, `》`. -/
theorem c9_show_name_derivation :
    (∀ pre mid post : List Char,
      ('/' : Char) ∉ pre ++ '《' :: (mid ++ '》' :: post) →
      ('《' : Char) ∉ pre → ('》' : Char) ∉ mid →
      get_show_name_from_dir (String.mk (pre ++ '《' :: (mid ++ '》' :: post))) =
        String.mk mid) ∧
    (∀ s : String, extractQuoted (basenameL s.data) = none →
      ((∀ c ∈ cleanName (basenameL s.data), c.isWhitespace) →
        get_show_name_from_dir s = "") ∧
      (∀ (t : List Char) (ts : List (List Char)),
        tokenize (cleanName (basenameL s.data)) = t :: ts →
        get_show_name_from_dir s = String.mk t ∧ t ≠ [] ∧
        (∀ c ∈ t, ¬ c.isWhitespace) ∧
        ∃ w rest, cleanName (basenameL s.data) = w ++ t ++ rest ∧
          (∀ c ∈ w, c.isWhitespace) ∧
          (rest = [] ∨ ∃ d ds, rest = d :: ds ∧ d.isWhitespace))) ∧
    (∀ s : String, ∀ c ∈ cleanName (basenameL s.data),
      c.isDigit = false ∧ c ≠ '-' ∧ c ≠ '.' ∧ c ≠ '《' ∧ c ≠ '》') := by
  refine ⟨?_, ?_, ?_⟩
  · intro pre mid post hs hpre hmid
    show (match extractQuoted (basenameL (pre ++ '《' :: (mid ++ '》' :: post))) with
          | some inner => String.mk inner
          | none => match tokenize (cleanName (basenameL (pre ++ '《' :: (mid ++ '》' :: post)))) with
                    | [] => ""
                    | t :: _ => String.mk t) = String.mk mid
    rw [basenameL_no_slash hs, extractQuoted_append pre mid post hpre hmid]
  · intro s hq
    constructor
    · intro hws
      have ht : tokenize (cleanName (basenameL s.data)) = [] :=
        (tokenize_eq_nil_iff _).mpr hws
      show (match extractQuoted (basenameL s.data) with
            | some inner => String.mk inner
            | none => match tokenize (cleanName (basenameL s.data)) with
                      | [] => ""
                      | t :: _ => String.mk t) = ""
      rw [hq, ht]
    · intro t ts ht
      refine ⟨?_, tokenize_head_spec (cleanName (basenameL s.data)) t ts ht⟩
      show (match extractQuoted (basenameL s.data) with
            | some inner => String.mk inner
            | none => match tokenize (cleanName (basenameL s.data)) with
                      | [] => ""
                      | t :: _ => String.mk t) = String.mk t
      rw [hq, ht]
  · intro s
    exact cleanName_strips (basenameL s.data)

theorem c9_show_name_derivation_witness :
    get_show_name_from_dir
        (String.mk (['a', 'b', 'c'] ++ '《' :: (['X', 'Y'] ++ '》' :: ['z']))) =
      String.mk ['X', 'Y'] ∧
    get_show_name_from_dir "Show-01" = "Show" := by
  constructor
  · exact c9_show_name_derivation.1 ['a', 'b', 'c'] ['X', 'Y'] ['z']
      (by decide) (by decide) (by decide)
  · have hq : extractQuoted (basenameL "Show-01".data) = none := by decide
    have ht : tokenize (cleanName (basenameL "Show-01".data)) =
        ['S', 'h', 'o', 'w'] :: [] := by
      simp [cleanName, basenameL, subDigits, replaceChar, subBetween, breakAt, tokenize]
    have h := ((c9_show_name_derivation.2.1 "Show-01" hq).2
      ['S', 'h', 'o', 'w'] [] ht).1
    rw [h]

end DramaMerge
